import Mathlib

/-!
Shallow embedding of the lyric-alignment core of LyricPrint (src/main.py):
the text normalizer `normalize_text`, the LRC transcript parser
`parse_lrc_file`, the timing-sequence builder `create_word_timing_map`,
the difflib `SequenceMatcher` similarity ratio, and the word-level aligner
`create_word_level_lyrics`.  Python strings are modelled as lists of
characters, Python floats as rationals, Python's stable `list.sort` as
`List.mergeSort`.  File I/O is factored out: the parser receives the list
of lines of the file.
-/

/-- Strings are modelled as lists of characters. -/
abbrev Str := List Char

/-- Python regex whitespace `\s` on the ASCII fragment:
space, tab, newline, carriage return, vertical tab, form feed. -/
def pyIsSpace (c : Char) : Bool :=
  c = ' ' || c = '\t' || c = '\n' || c = '\r' || c = '\x0b' || c = '\x0c'

/-- Python regex word characters `\w` on the ASCII fragment:
alphanumeric or underscore. -/
def pyIsWord (c : Char) : Bool :=
  c.isAlphanum || c = '_'

/-- Python `str.strip()`: remove leading and trailing whitespace. -/
def pyStrip (s : Str) : Str :=
  ((s.dropWhile pyIsSpace).reverse.dropWhile pyIsSpace).reverse

/-- Python `re.sub(r'\s+', ' ', s)`: replace every maximal run of
whitespace characters by a single space. -/
def collapseWS : Str → Str
  | [] => []
  | [c] => if pyIsSpace c then [' '] else [c]
  | c :: d :: cs =>
    if pyIsSpace c then
      if pyIsSpace d then collapseWS (d :: cs)
      else ' ' :: collapseWS (d :: cs)
    else c :: collapseWS (d :: cs)

/-- The method `normalize_text` of src/main.py: lowercase, delete every
character matching `[^\w\s]`, collapse whitespace runs to single spaces,
and strip the ends. -/
def normalize_text (s : Str) : Str :=
  pyStrip (collapseWS ((s.map Char.toLower).filter (fun c => pyIsWord c || pyIsSpace c)))

/-- Helper for Python `str.split()`: accumulate the current word (reversed)
and emit it at each whitespace run or at the end. -/
def splitAux : Str → Str → List Str
  | [], acc => if acc.isEmpty then [] else [acc.reverse]
  | c :: cs, acc =>
    if pyIsSpace c then
      if acc.isEmpty then splitAux cs [] else acc.reverse :: splitAux cs []
    else splitAux cs (c :: acc)

/-- Python `str.split()` with no separator: split on whitespace runs,
discarding empty words. -/
def pySplit (s : Str) : List Str :=
  splitAux s []

/-- Numeric value of a digit string. -/
def digitsVal (s : Str) : Nat :=
  s.foldl (fun a c => 10 * a + (c.toNat - '0'.toNat)) 0

/-- Python `int(s)` on the modelled subset: an optional single sign followed
by one or more digits.  (Surrounding whitespace and underscore digit
separators, which CPython also accepts, are outside the modelled subset.) -/
def pyInt (s : Str) : Option Int :=
  match s with
  | '+' :: rest =>
    if !rest.isEmpty && rest.all Char.isDigit then some (digitsVal rest) else none
  | '-' :: rest =>
    if !rest.isEmpty && rest.all Char.isDigit then some (-(digitsVal rest : Int)) else none
  | _ =>
    if !s.isEmpty && s.all Char.isDigit then some (digitsVal s) else none

/-- Magnitude part of Python `float(s)` on the modelled subset: digits with
an optional single decimal point (`12`, `12.`, `.5`, `12.5`), at least one
digit overall.  (Exponents, `inf` and `nan` are outside the modelled
subset.) -/
def pyFloatMag (s : Str) : Option Rat :=
  match s.dropWhile Char.isDigit with
  | [] =>
    if (s.takeWhile Char.isDigit).isEmpty then none
    else some ((digitsVal (s.takeWhile Char.isDigit) : Nat) : Rat)
  | '.' :: fp =>
    if fp.all Char.isDigit && !((s.takeWhile Char.isDigit).isEmpty && fp.isEmpty) then
      some (((digitsVal (s.takeWhile Char.isDigit) : Nat) : Rat) +
        ((digitsVal fp : Nat) : Rat) / ((10 : Rat) ^ fp.length))
    else none
  | _ => none

/-- Python `float(s)` on the modelled subset: optional sign and magnitude. -/
def pyFloat (s : Str) : Option Rat :=
  match s with
  | '+' :: rest => pyFloatMag rest
  | '-' :: rest => (pyFloatMag rest).map (fun q => -q)
  | _ => pyFloatMag s

/-- The metadata tag substrings that `parse_lrc_file` tests for, in source
order: `'ar:'`, `'al:'`, `'ti:'`, `'length:'`, `'id:'`. -/
def metaTags : List Str :=
  ["ar:".data, "al:".data, "ti:".data, "length:".data, "id:".data]

/-- The bracketed timestamp field `line[1:line.index(']')]` of a stripped
line starting with `[`. -/
def lrcTsField (line : Str) : Str :=
  (line.drop 1).takeWhile (fun c => c ≠ ']')

/-- The stripped lyric text `line[line.index(']')+1:].strip()` after the
first closing bracket. -/
def lrcContent (line : Str) : Str :=
  pyStrip ((line.dropWhile (fun c => c ≠ ']')).drop 1)

/-- The minutes field `timestamp_str.split(':')[0]`. -/
def lrcMinField (ts : Str) : Str :=
  ts.takeWhile (fun c => c ≠ ':')

/-- The seconds field `timestamp_str.split(':')[1]`. -/
def lrcSecField (ts : Str) : Str :=
  ((ts.dropWhile (fun c => c ≠ ':')).drop 1).takeWhile (fun c => c ≠ ':')

/-- One iteration of the per-line loop of `parse_lrc_file` (src/main.py):
strip the line; skip blank lines; skip lines that start with `[` and whose
lowercased text contains a metadata tag substring anywhere; otherwise, for a
line starting with `[` and containing `]`, read the bracketed field, split
it on `:` into minutes (Python `int`) and seconds (Python `float`), and keep
`(minutes*60 + seconds, stripped text after the bracket)` when the text is
non-empty.  Any failure skips just this line (`continue`). -/
def parseLine (raw : Str) : Option (Rat × Str) :=
  if (pyStrip raw).isEmpty then none
  else if (pyStrip raw).headD ' ' = '[' &&
      metaTags.any (fun t => decide (t.IsInfix ((pyStrip raw).map Char.toLower))) then
    none
  else if (pyStrip raw).headD ' ' = '[' && (pyStrip raw).contains ']' then
    if (lrcTsField (pyStrip raw)).contains ':' then
      match pyInt (lrcMinField (lrcTsField (pyStrip raw))),
          pyFloat (lrcSecField (lrcTsField (pyStrip raw))) with
      | some m, some sec =>
        if (lrcContent (pyStrip raw)).isEmpty then none
        else some ((m : Rat) * 60 + sec, lrcContent (pyStrip raw))
      | _, _ => none
    else none
  else none

/-- Comparator of Python's `sorted(lyrics_with_time, key=lambda x: x[0])`. -/
def tsLE (a b : Rat × Str) : Bool :=
  decide (a.1 ≤ b.1)

/-- The method `parse_lrc_file` of src/main.py on its pure core: the file is
given as its list of lines; each line goes through `parseLine`; the kept
pairs are sorted by timestamp with Python's stable sort. -/
def parse_lrc_file (lines : List Str) : List (Rat × Str) :=
  (lines.filterMap parseLine).mergeSort tsLE

/-- The method `create_word_timing_map` of src/main.py: parse the timing
transcript and keep, in order, one `(timestamp, normalized, original)`
triple per parsed line whose normalized text is non-empty. -/
def create_word_timing_map (timing : List Str) : List (Rat × Str × Str) :=
  (parse_lrc_file timing).filterMap (fun p =>
    let nw := normalize_text p.2
    if nw.isEmpty then none else some (p.1, nw, p.2))

/-- Length of the run of equal characters of `a` from `i` and `b` from `j`,
stopping at the window bounds `ahi`, `bhi`; `fuel` dominates `ahi - i`. -/
def runLen (a b : Str) (ahi bhi : Nat) : Nat → Nat → Nat → Nat
  | 0, _, _ => 0
  | fuel + 1, i, j =>
    if i < ahi && j < bhi && (a.getD i ' ' == b.getD j ' ') then
      runLen a b ahi bhi fuel (i + 1) (j + 1) + 1
    else 0

/-- difflib `SequenceMatcher.find_longest_match` on a window, without the
junk machinery (empty for the short strings compared here): the longest
matching block, the earliest in `a` and then in `b` among the longest,
`(alo, blo, 0)` when there is none. -/
def bestBlock (a b : Str) (alo ahi blo bhi : Nat) : Nat × Nat × Nat :=
  (List.range' alo (ahi - alo)).foldl (fun best i =>
    (List.range' blo (bhi - blo)).foldl (fun best j =>
      let k := runLen a b ahi bhi (ahi - i) i j
      if best.2.2 < k then (i, j, k) else best) best) (alo, blo, 0)

/-- Total size of the blocks of difflib `get_matching_blocks`: recursively
split the window around the longest matching block; `fuel` dominates the
`a`-window size. -/
def matchTotal (a b : Str) : Nat → Nat → Nat → Nat → Nat → Nat
  | 0, _, _, _, _ => 0
  | fuel + 1, alo, ahi, blo, bhi =>
    let ijk := bestBlock a b alo ahi blo bhi
    if ijk.2.2 = 0 then 0
    else
      matchTotal a b fuel alo ijk.1 blo ijk.2.1 + ijk.2.2 +
        matchTotal a b fuel (ijk.1 + ijk.2.2) ahi (ijk.2.1 + ijk.2.2) bhi

/-- difflib `SequenceMatcher(None, a, b).ratio()`: `2*M/T` for `M` the total
matched size and `T` the total length, and `1` when both strings are empty
(as in difflib `_calculate_ratio`). -/
def similarity (a b : Str) : Rat :=
  if a.length + b.length = 0 then 1
  else 2 * ((matchTotal a b (a.length + 1) 0 a.length 0 b.length : Nat) : Rat) /
    (((a.length + b.length : Nat)) : Rat)

/-- The scan `for search_idx in range(lo, lo + n)` with a `break` on the
first index satisfying `p`. -/
def findFrom (p : Nat → Bool) : Nat → Nat → Option Nat
  | _, 0 => none
  | lo, n + 1 => if p lo then some lo else findFrom p (lo + 1) n

/-- The window search of `create_word_level_lyrics` for one structure word:
scan indices from `max(0, ti - 2)` up to `min(len, ti + 50)` in order and
accept the first candidate whose similarity with the normalized word
strictly exceeds `0.8`; return its timestamp and the new cursor, one past
the match. -/
def findTiming (seq : List (Rat × Str × Str)) (nw : Str) (ti : Nat) : Option (Rat × Nat) :=
  match findFrom (fun i => decide (8 / 10 < similarity nw (seq.getD i (0, [], [])).2.1))
      (max 0 (ti - 2)) (min seq.length (ti + 50) - max 0 (ti - 2)) with
  | some i => some ((seq.getD i (0, [], [])).1, i + 1)
  | none => none

/-- State of the alignment loops: the timing cursor `timing_index` and the
accumulated `word_level_lyrics` output. -/
abbrev AlignSt := Nat × List (Rat × Str × Bool)

/-- One iteration of the inner word loop of `create_word_level_lyrics`: on a
match take its timestamp and move the cursor one past the match; otherwise
fall back to the line timestamp for the word at index 0 and to the last
output timestamp plus 0.3 for a later word; append the word with its
`is_line_end` flag. -/
def processWord (seq : List (Rat × Str × Str)) (lineTs : Rat) (nWords wi : Nat) (w : Str)
    (st : AlignSt) : AlignSt :=
  match findTiming seq (normalize_text w) st.1 with
  | some (t, ti) => (ti, st.2 ++ [(t, w, wi == nWords - 1)])
  | none =>
    let prev := match st.2.getLast? with
      | some e => e.1
      | none => lineTs
    let t := if wi = 0 then lineTs else prev + 3 / 10
    (st.1, st.2 ++ [(t, w, wi == nWords - 1)])

/-- One iteration of the outer line loop of `create_word_level_lyrics`:
skip a line whose text strips to empty, otherwise process its
whitespace-split words in order. -/
def processLine (seq : List (Rat × Str × Str)) (st : AlignSt) (line : Rat × Str) : AlignSt :=
  if (pyStrip line.2).isEmpty then st
  else
    let ws := pySplit line.2
    ws.enum.foldl (fun s p => processWord seq line.1 ws.length p.1 p.2 s) st

/-- Comparator of the final `word_level_lyrics.sort(key=lambda x: x[0])`. -/
def tsLE3 (a b : Rat × Str × Bool) : Bool :=
  decide (a.1 ≤ b.1)

/-- The aligner's accumulated output before the final sort. -/
def alignRaw (structure_lrc timing_lrc : List Str) : List (Rat × Str × Bool) :=
  ((parse_lrc_file structure_lrc).foldl (processLine (create_word_timing_map timing_lrc)) (0, [])).2

/-- The method `create_word_level_lyrics` of src/main.py on its pure core:
parse both transcripts, return `[]` when either yields no usable entries,
otherwise run the alignment loops and stably sort the result by
timestamp. -/
def create_word_level_lyrics (structure_lrc timing_lrc : List Str) : List (Rat × Str × Bool) :=
  let sl := parse_lrc_file structure_lrc
  let seq := create_word_timing_map timing_lrc
  if sl.isEmpty || seq.isEmpty then []
  else (alignRaw structure_lrc timing_lrc).mergeSort tsLE3

/-- A concrete timing sequence with two entries, used to instantiate
universally quantified theorems. -/
def wSeq : List (Rat × Str × Str) :=
  [(21 / 2, "hello".data, "hello".data), (11, "world".data, "world".data)]

/-- Structure transcript of the cursor-backtrack scenario. -/
def structC2 : List Str :=
  ["[00:01.00]aaaa bbbb cccc".data, "[00:02.00]bbbb".data]

/-- Timing transcript of the cursor-backtrack scenario. -/
def timingC2 : List Str :=
  ["[00:01.00]aaaa".data, "[00:01.20]bbbb".data, "[00:01.40]cccc".data]

/-- ASCII punctuation: the printable ASCII characters that are neither
alphanumeric nor the space character — exactly the characters of Python's
`string.punctuation`, which includes the underscore. -/
def isAsciiPunct (c : Char) : Bool :=
  33 ≤ c.toNat && c.toNat ≤ 126 && !c.isAlphanum

/-- No two adjacent whitespace characters in the string. -/
def noAdjSpace : Str → Bool
  | [] => true
  | [_] => true
  | c :: d :: cs => (!(pyIsSpace c && pyIsSpace d)) && noAdjSpace (d :: cs)

/-! ### Properties of the window scan -/

/-- A successful `findFrom` scan returns the first index of its range that
satisfies the predicate. -/
theorem findFrom_eq_some {p : Nat → Bool} :
    ∀ {n lo i : Nat}, findFrom p lo n = some i →
      lo ≤ i ∧ i < lo + n ∧ p i = true ∧ ∀ j, lo ≤ j → j < i → p j = false := by
  intro n
  induction n with
  | zero => intro lo i h; simp [findFrom] at h
  | succ n ih =>
    intro lo i h
    rw [findFrom] at h
    by_cases hp : p lo
    · simp only [hp, if_true] at h
      cases h
      exact ⟨Nat.le_refl _, by omega, hp, fun j h1 h2 => by omega⟩
    · simp only [hp, if_false, Bool.false_eq_true] at h
      obtain ⟨h1, h2, h3, h4⟩ := ih h
      refine ⟨by omega, by omega, h3, ?_⟩
      intro j hj1 hj2
      rcases Nat.eq_or_lt_of_le hj1 with rfl | hlt
      · exact Bool.eq_false_iff.mpr hp
      · exact h4 j hlt hj2

/-- A failed `findFrom` scan means no index of its range satisfies the
predicate. -/
theorem findFrom_eq_none {p : Nat → Bool} :
    ∀ {n lo : Nat}, findFrom p lo n = none →
      ∀ j, lo ≤ j → j < lo + n → p j = false := by
  intro n
  induction n with
  | zero => intro lo _ j h1 h2; omega
  | succ n ih =>
    intro lo h j h1 h2
    rw [findFrom] at h
    by_cases hp : p lo
    · simp [hp] at h
    · simp only [hp, if_false, Bool.false_eq_true] at h
      rcases Nat.eq_or_lt_of_le h1 with rfl | hlt
      · exact Bool.eq_false_iff.mpr hp
      · exact ih h j hlt (by omega)

/-- Shape of a successful window search: the accepted index lies in the
window and the cursor is set one past it. -/
theorem findTiming_some_shape {seq : List (Rat × Str × Str)} {nw : Str} {ti : Nat}
    {t : Rat} {ti' : Nat} (h : findTiming seq nw ti = some (t, ti')) :
    ∃ i, ti' = i + 1 ∧ max 0 (ti - 2) ≤ i ∧ i < min seq.length (ti + 50) ∧
      t = (seq.getD i (0, [], [])).1 := by
  unfold findTiming at h
  rcases hfind : findFrom (fun i => decide (8 / 10 < similarity nw (seq.getD i (0, [], [])).2.1))
      (max 0 (ti - 2)) (min seq.length (ti + 50) - max 0 (ti - 2)) with _ | i
  · rw [hfind] at h
    simp at h
  · rw [hfind] at h
    simp only [Option.some.injEq, Prod.mk.injEq] at h
    obtain ⟨h1, h2, _, _⟩ := findFrom_eq_some hfind
    exact ⟨i, h.2.symm, h1, by omega, h.1.symm⟩

/-- C1: for every structure word the aligner searches the timing sequence
only over the window from `max(0, cursor - 2)` up to, exclusively,
`min(length, cursor + 50)`; it accepts exactly the first candidate of the
window, in chronological order, whose similarity ratio with the normalized
word strictly exceeds 0.8; the accepted candidate's timestamp is returned
and the new cursor is one past the matched index; and a failed search means
no candidate of the window clears the threshold. -/
theorem findTiming_first_match_in_window (seq : List (Rat × Str × Str)) (nw : Str) (ti : Nat) :
    (∀ t ti', findTiming seq nw ti = some (t, ti') →
      ∃ i, max 0 (ti - 2) ≤ i ∧ i < min seq.length (ti + 50) ∧
        8 / 10 < similarity nw (seq.getD i (0, [], [])).2.1 ∧
        (∀ j, max 0 (ti - 2) ≤ j → j < i →
          ¬ 8 / 10 < similarity nw (seq.getD j (0, [], [])).2.1) ∧
        t = (seq.getD i (0, [], [])).1 ∧ ti' = i + 1) ∧
    (findTiming seq nw ti = none →
      ∀ j, max 0 (ti - 2) ≤ j → j < min seq.length (ti + 50) →
        ¬ 8 / 10 < similarity nw (seq.getD j (0, [], [])).2.1) := by
  constructor
  · intro t ti' hsome
    unfold findTiming at hsome
    rcases hfind : findFrom (fun i => decide (8 / 10 < similarity nw (seq.getD i (0, [], [])).2.1))
        (max 0 (ti - 2)) (min seq.length (ti + 50) - max 0 (ti - 2)) with _ | i
    · rw [hfind] at hsome
      simp at hsome
    · rw [hfind] at hsome
      simp only [Option.some.injEq, Prod.mk.injEq] at hsome
      obtain ⟨h1, h2, h3, h4⟩ := findFrom_eq_some hfind
      refine ⟨i, h1, by omega, of_decide_eq_true h3, ?_, hsome.1.symm, hsome.2.symm⟩
      intro j hj1 hj2
      have hj := h4 j hj1 hj2
      simpa using hj
  · intro hnone j hj1 hj2
    unfold findTiming at hnone
    rcases hfind : findFrom (fun i => decide (8 / 10 < similarity nw (seq.getD i (0, [], [])).2.1))
        (max 0 (ti - 2)) (min seq.length (ti + 50) - max 0 (ti - 2)) with _ | i
    · have hj := findFrom_eq_none hfind j hj1 (by omega)
      simpa using hj
    · rw [hfind] at hnone
      simp at hnone

set_option maxRecDepth 100000 in
unseal Rat.mul Rat.add Rat.inv Rat.sub in
/-- Instantiation of the window-search characterization at a concrete
sequence, word and cursor. -/
theorem findTiming_first_match_in_window_witness :
    ∃ i, max 0 (0 - 2) ≤ i ∧ i < min wSeq.length (0 + 50) ∧
      8 / 10 < similarity ("hello".data) (wSeq.getD i (0, [], [])).2.1 ∧
      (∀ j, max 0 (0 - 2) ≤ j → j < i →
        ¬ 8 / 10 < similarity ("hello".data) (wSeq.getD j (0, [], [])).2.1) ∧
      (21 / 2 : Rat) = (wSeq.getD i (0, [], [])).1 ∧ 1 = i + 1 :=
  (findTiming_first_match_in_window wSeq ("hello".data) 0).1 (21 / 2) 1 (by decide)

/-! ### The timing cursor -/

set_option maxRecDepth 400000 in
unseal Rat.mul Rat.add Rat.inv Rat.sub List.merge List.mergeSort in
/-- The timing cursor is not monotone: in the run of
`create_word_level_lyrics` on these transcripts, the cursor is 3 after the
first structure line, and processing the next structure word (the single
word of the second line) matches at window position `3 - 2 = 1` and sets
the cursor to 2 < 3. -/
theorem timing_index_decreases_on_backtrack :
    parse_lrc_file structC2 = [(1, "aaaa bbbb cccc".data), (2, "bbbb".data)] ∧
    (processLine (create_word_timing_map timingC2) (0, []) (1, "aaaa bbbb cccc".data)).1 = 3 ∧
    (processWord (create_word_timing_map timingC2) 2 1 0 ("bbbb".data)
      (processLine (create_word_timing_map timingC2) (0, []) (1, "aaaa bbbb cccc".data))).1 = 2 := by
  decide

/-- C2 (amended): across the processing of a single structure word the
timing cursor never decreases by more than one position. -/
theorem timing_index_never_decreases_by_more_than_one
    (seq : List (Rat × Str × Str)) (lineTs : Rat) (nWords wi : Nat) (w : Str) (st : AlignSt) :
    st.1 ≤ (processWord seq lineTs nWords wi w st).1 + 1 := by
  unfold processWord
  rcases hfind : findTiming seq (normalize_text w) st.1 with _ | ⟨t, ti⟩
  · exact Nat.le_succ st.1
  · obtain ⟨i, rfl, h2, h3, _⟩ := findTiming_some_shape hfind
    show st.1 ≤ i + 1 + 1
    omega

/-- C10: processing one word keeps a cursor that was within
`[0, length]` within `[0, length]`, and a successful match sets the cursor
into `[1, length]`, at least the previous cursor minus one. -/
theorem timing_index_stays_in_range
    (seq : List (Rat × Str × Str)) (lineTs : Rat) (nWords wi : Nat) (w : Str) (st : AlignSt) :
    (st.1 ≤ seq.length → (processWord seq lineTs nWords wi w st).1 ≤ seq.length) ∧
    (∀ t ti', findTiming seq (normalize_text w) st.1 = some (t, ti') →
      st.1 ≤ ti' + 1 ∧ 1 ≤ ti' ∧ ti' ≤ seq.length) := by
  constructor
  · intro hlen
    unfold processWord
    rcases hfind : findTiming seq (normalize_text w) st.1 with _ | ⟨t, ti⟩
    · exact hlen
    · obtain ⟨i, rfl, h2, h3, _⟩ := findTiming_some_shape hfind
      show i + 1 ≤ seq.length
      omega
  · intro t ti' h
    obtain ⟨i, rfl, h2, h3, _⟩ := findTiming_some_shape h
    omega

set_option maxRecDepth 100000 in
unseal Rat.mul Rat.add Rat.inv Rat.sub in
/-- Instantiation of the cursor range invariant at a concrete sequence,
word and state. -/
theorem timing_index_stays_in_range_witness :
    (processWord wSeq (21 / 2) 2 0 ("hello".data) (0, [])).1 ≤ wSeq.length ∧
    (0 ≤ 1 + 1 ∧ 1 ≤ 1 ∧ 1 ≤ wSeq.length) :=
  ⟨(timing_index_stays_in_range wSeq (21 / 2) 2 0 ("hello".data) (0, [])).1 (by decide),
   (timing_index_stays_in_range wSeq (21 / 2) 2 0 ("hello".data) (0, [])).2 (21 / 2) 1 (by decide)⟩

/-! ### Fallback timestamps -/

/-- Unfolding of `processWord` when the window search fails: the cursor is
unchanged and one entry is appended, timestamped by the fallback rule. -/
theorem processWord_none_eq {seq : List (Rat × Str × Str)} {lineTs : Rat}
    {nWords wi : Nat} {w : Str} {st : AlignSt}
    (h : findTiming seq (normalize_text w) st.1 = none) :
    processWord seq lineTs nWords wi w st =
      (st.1, st.2 ++ [(if wi = 0 then lineTs
        else ((st.2.getLast?.map (fun e => e.1)).getD lineTs) + 3 / 10, w,
        wi == nWords - 1)]) := by
  unfold processWord
  rw [h]
  rcases hl : st.2.getLast? with _ | e
  · simp [hl]
  · simp [hl]

/-- C3: when the window search fails for a structure word, the word at
index 0 of its line is assigned the structure line's own timestamp, and a
word at a later index is assigned the timestamp of the previously appended
output entry plus exactly 0.3 seconds; consequently, for a next
consecutive unmatched word the fallback timestamp is the previous fallback
timestamp plus another 0.3 seconds. -/
theorem fallback_timestamps (seq : List (Rat × Str × Str)) (lineTs : Rat)
    (nWords wi : Nat) (w : Str) (st : AlignSt)
    (h : findTiming seq (normalize_text w) st.1 = none) :
    ((processWord seq lineTs nWords wi w st).2.getLast?.map (fun e => e.1) =
      some (if wi = 0 then lineTs
        else ((st.2.getLast?.map (fun e => e.1)).getD lineTs) + 3 / 10)) ∧
    (∀ w', findTiming seq (normalize_text w')
        (processWord seq lineTs nWords wi w st).1 = none →
      (processWord seq lineTs nWords (wi + 1) w'
          (processWord seq lineTs nWords wi w st)).2.getLast?.map (fun e => e.1) =
        some ((if wi = 0 then lineTs
          else ((st.2.getLast?.map (fun e => e.1)).getD lineTs) + 3 / 10) + 3 / 10)) := by
  have e1 := @processWord_none_eq seq lineTs nWords wi w st h
  constructor
  · rw [e1]
    simp
  · intro w' h'
    rw [e1] at h'
    have e2 := @processWord_none_eq seq lineTs nWords (wi + 1) w' _ h'
    rw [e1, e2]
    simp

set_option maxRecDepth 200000 in
unseal Rat.mul Rat.add Rat.inv Rat.sub in
/-- Instantiation of the fallback rule on a concrete run: two successive
unmatched words of one line take the line timestamp and then 0.3 more. -/
theorem fallback_timestamps_witness :
    ((processWord wSeq 5 2 0 ("zzz".data) ((0, []) : AlignSt)).2.getLast?.map (fun e => e.1) =
      some (if 0 = 0 then (5 : Rat)
        else ((((0, []) : AlignSt).2.getLast?.map (fun e => e.1)).getD 5) + 3 / 10)) ∧
    ((processWord wSeq 5 2 (0 + 1) ("yyy".data)
        (processWord wSeq 5 2 0 ("zzz".data) ((0, []) : AlignSt))).2.getLast?.map (fun e => e.1) =
      some ((if 0 = 0 then (5 : Rat)
        else ((((0, []) : AlignSt).2.getLast?.map (fun e => e.1)).getD 5) + 3 / 10) + 3 / 10)) :=
  ⟨(fallback_timestamps wSeq 5 2 0 ("zzz".data) ((0, []) : AlignSt) (by decide)).1,
   (fallback_timestamps wSeq 5 2 0 ("zzz".data) ((0, []) : AlignSt) (by decide)).2
     ("yyy".data) (by decide)⟩

/-! ### Degenerate inputs -/

/-- C9: when either transcript parses to zero usable entries the aligner
returns the empty sequence.  (Every function of this embedding is total,
so no modelled run can raise an exception; low-similarity words take the
fallback branch of `processWord` rather than failing.) -/
theorem empty_inputs_give_empty_output (structure_lrc timing_lrc : List Str)
    (h : (parse_lrc_file structure_lrc).isEmpty = true ∨
      (create_word_timing_map timing_lrc).isEmpty = true) :
    create_word_level_lyrics structure_lrc timing_lrc = [] := by
  unfold create_word_level_lyrics
  rcases h with h | h <;> simp [h]

unseal List.merge List.mergeSort in
/-- Instantiation of the empty-input rule: a structure transcript with no
parsable line gives an empty aligner output. -/
theorem empty_inputs_give_empty_output_witness :
    create_word_level_lyrics ["no timestamp line".data] [] = [] :=
  empty_inputs_give_empty_output ["no timestamp line".data] [] (by decide)

/-! ### The final sort -/

/-- Stability of `mergeSort` under a rational key: filtering the sorted
list at any fixed key value gives exactly the unsorted filtration. -/
theorem filter_key_mergeSort {α : Type} (key : α → Rat) (l : List α) (q : Rat) :
    (l.mergeSort (fun a b => decide (key a ≤ key b))).filter (fun e => decide (key e = q)) =
      l.filter (fun e => decide (key e = q)) := by
  have trans : ∀ a b c : α, (fun a b => decide (key a ≤ key b)) a b →
      (fun a b => decide (key a ≤ key b)) b c → (fun a b => decide (key a ≤ key b)) a c := by
    intro a b c h1 h2
    simp only [decide_eq_true_eq] at h1 h2 ⊢
    exact le_trans h1 h2
  have total : ∀ a b : α, (fun a b => decide (key a ≤ key b)) a b ||
      (fun a b => decide (key a ≤ key b)) b a := by
    intro a b
    rcases le_total (key a) (key b) with h | h <;> simp [h]
  have hmem : ∀ e ∈ l.filter (fun e => decide (key e = q)), key e = q := by
    intro e he
    have hf := List.mem_filter.mp he
    simpa using hf.2
  have hpair : (l.filter (fun e => decide (key e = q))).Pairwise
      (fun a b => decide (key a ≤ key b) = true) := by
    apply List.pairwise_of_forall_mem_list
    intro a ha b hb
    rw [decide_eq_true_eq, hmem a ha, hmem b hb]
  have h1 : List.Sublist (l.filter (fun e => decide (key e = q)))
      (l.mergeSort (fun a b => decide (key a ≤ key b))) :=
    List.sublist_mergeSort trans total hpair (List.filter_sublist l)
  have h2 : List.Perm ((l.mergeSort (fun a b => decide (key a ≤ key b))).filter
        (fun e => decide (key e = q))) (l.filter (fun e => decide (key e = q))) :=
    (List.mergeSort_perm l _).filter _
  have hself : (l.filter (fun e => decide (key e = q))).filter (fun e => decide (key e = q)) =
      l.filter (fun e => decide (key e = q)) :=
    List.filter_eq_self.mpr (fun a ha => (List.mem_filter.mp ha).2)
  have h3 : List.Sublist (l.filter (fun e => decide (key e = q)))
      ((l.mergeSort (fun a b => decide (key a ≤ key b))).filter (fun e => decide (key e = q))) := by
    have h4 := h1.filter (fun e => decide (key e = q))
    rwa [hself] at h4
  exact (h3.eq_of_length h2.length_eq.symm).symm

/-- C4: the aligner's output is non-decreasing in timestamp, and (when the
early-empty return is not taken) entries with equal timestamps keep their
pre-sort structure-transcript word order: the final sort is stable. -/
theorem output_sorted_and_stable (structure_lrc timing_lrc : List Str) :
    List.Pairwise (fun a b => a.1 ≤ b.1) (create_word_level_lyrics structure_lrc timing_lrc) ∧
    ((parse_lrc_file structure_lrc).isEmpty = false →
      (create_word_timing_map timing_lrc).isEmpty = false →
      ∀ q : Rat,
        (create_word_level_lyrics structure_lrc timing_lrc).filter (fun e => decide (e.1 = q)) =
          (alignRaw structure_lrc timing_lrc).filter (fun e => decide (e.1 = q))) := by
  constructor
  · unfold create_word_level_lyrics
    by_cases h : ((parse_lrc_file structure_lrc).isEmpty ||
        (create_word_timing_map timing_lrc).isEmpty) = true
    · simp [h]
    · rw [Bool.not_eq_true] at h
      simp only [h, Bool.false_eq_true, if_false]
      have hs := @List.sorted_mergeSort (Rat × Str × Bool) tsLE3
        (by intro a b c h1 h2
            simp only [tsLE3, decide_eq_true_eq] at h1 h2 ⊢
            exact le_trans h1 h2)
        (by intro a b
            simp only [tsLE3]
            rcases le_total a.1 b.1 with hab | hab <;> simp [hab])
        (alignRaw structure_lrc timing_lrc)
      exact hs.imp (fun hab => by simpa [tsLE3] using hab)
  · intro h1 h2 q
    unfold create_word_level_lyrics
    simp only [h1, h2, Bool.or_self, Bool.false_eq_true, if_false]
    have he := filter_key_mergeSort (fun e : Rat × Str × Bool => e.1)
      (alignRaw structure_lrc timing_lrc) q
    exact he

set_option maxRecDepth 400000 in
unseal Rat.mul Rat.add Rat.inv Rat.sub List.merge List.mergeSort in
/-- Instantiation of sortedness and stability on a concrete run. -/
theorem output_sorted_and_stable_witness :
    List.Pairwise (fun (a b : Rat × Str × Bool) => a.1 ≤ b.1)
      (create_word_level_lyrics structC2 timingC2) ∧
    (create_word_level_lyrics structC2 timingC2).filter (fun e => decide (e.1 = 1)) =
      (alignRaw structC2 timingC2).filter (fun e => decide (e.1 = 1)) :=
  ⟨(output_sorted_and_stable structC2 timingC2).1,
   (output_sorted_and_stable structC2 timingC2).2 (by decide) (by decide) 1⟩

/-! ### Line-end flags -/

/-- `processWord` appends exactly one entry: the processed word, carrying
the flag `word_index == number of line words - 1`. -/
theorem processWord_snd_shape (seq : List (Rat × Str × Str)) (lineTs : Rat)
    (nWords wi : Nat) (w : Str) (st : AlignSt) :
    ∃ q ti, processWord seq lineTs nWords wi w st = (ti, st.2 ++ [(q, w, wi == nWords - 1)]) := by
  unfold processWord
  rcases h : findTiming seq (normalize_text w) st.1 with _ | ⟨t, ti⟩
  · exact ⟨_, _, rfl⟩
  · exact ⟨t, ti, rfl⟩

/-- The inner word loop appends one entry per word, whose flags are
`index == nWords - 1` in word order. -/
theorem foldWords_shape (seq : List (Rat × Str × Str)) (lineTs : Rat) (n : Nat) :
    ∀ (ps : List (Nat × Str)) (st : AlignSt),
      ∃ es, (ps.foldl (fun s p => processWord seq lineTs n p.1 p.2 s) st).2 = st.2 ++ es ∧
        es.map (fun e => e.2.2) = ps.map (fun p => p.1 == n - 1) := by
  intro ps
  induction ps with
  | nil => intro st; exact ⟨[], by simp, by simp⟩
  | cons p ps ih =>
    intro st
    obtain ⟨q, ti, hpw⟩ := processWord_snd_shape seq lineTs n p.1 p.2 st
    obtain ⟨es, h1, h2⟩ := ih (processWord seq lineTs n p.1 p.2 st)
    refine ⟨(q, p.2, p.1 == n - 1) :: es, ?_, ?_⟩
    · simp only [List.foldl_cons]
      rw [h1, hpw]
      simp
    · simp [h2]

/-- The flags of the enumerated indices `0, …, n-1` against `n - 1`:
`false` everywhere except at the last position. -/
theorem range_flags : ∀ m : Nat, (List.range (m + 1)).map (fun i => i == m) =
    List.replicate m false ++ [true] := by
  intro m
  rw [List.range_succ, List.map_append]
  have h1 : (List.range m).map (fun i => i == m) = List.replicate m false := by
    rw [List.eq_replicate_iff]
    constructor
    · simp
    · intro b hb
      obtain ⟨i, hi, rfl⟩ := List.mem_map.mp hb
      have : i < m := List.mem_range.mp hi
      simp [Nat.ne_of_lt this]
  rw [h1]
  simp

/-- A `splitAux` run produces no word only when the accumulator is empty
and every remaining character is whitespace. -/
theorem splitAux_eq_nil : ∀ (l : Str) (acc : Str), splitAux l acc = [] →
    acc = [] ∧ ∀ c ∈ l, pyIsSpace c = true := by
  intro l
  induction l with
  | nil =>
    intro acc h
    unfold splitAux at h
    by_cases ha : acc.isEmpty
    · exact ⟨List.isEmpty_iff.mp ha, by simp⟩
    · simp [ha] at h
  | cons c cs ih =>
    intro acc h
    unfold splitAux at h
    by_cases hc : pyIsSpace c
    · simp only [hc, if_true] at h
      by_cases ha : acc.isEmpty
      · simp only [ha, if_true] at h
        obtain ⟨-, hall⟩ := ih [] h
        exact ⟨List.isEmpty_iff.mp ha, by
          intro d hd
          rcases List.mem_cons.mp hd with rfl | hd
          · exact hc
          · exact hall d hd⟩
      · simp [ha] at h
    · simp only [hc, Bool.false_eq_true, if_false] at h
      obtain ⟨hacc, -⟩ := ih (c :: acc) h
      exact absurd hacc (List.cons_ne_nil c acc)

/-- Stripping a string of whitespace characters gives the empty string. -/
theorem pyStrip_eq_nil_of_all_space (l : Str) (h : ∀ c ∈ l, pyIsSpace c = true) :
    pyStrip l = [] := by
  unfold pyStrip
  have h1 : l.dropWhile pyIsSpace = [] := List.dropWhile_eq_nil_iff.mpr h
  rw [h1]
  simp

/-- A string whose strip is non-empty splits into at least one word. -/
theorem pySplit_ne_nil (l : Str) (h : (pyStrip l).isEmpty = false) :
    pySplit l ≠ [] := by
  intro hsplit
  obtain ⟨-, hall⟩ := splitAux_eq_nil l [] hsplit
  rw [pyStrip_eq_nil_of_all_space l hall] at h
  simp at h

/-- `pyStrip` as a Mathlib right-drop after a left-drop. -/
theorem pyStrip_eq_rdropWhile (s : Str) :
    pyStrip s = List.rdropWhile pyIsSpace (s.dropWhile pyIsSpace) := rfl

/-- Stripping is idempotent. -/
theorem pyStrip_idem (s : Str) : pyStrip (pyStrip s) = pyStrip s := by
  rw [pyStrip_eq_rdropWhile, pyStrip_eq_rdropWhile]
  have hm : (List.rdropWhile pyIsSpace (s.dropWhile pyIsSpace)).dropWhile pyIsSpace =
      List.rdropWhile pyIsSpace (s.dropWhile pyIsSpace) := by
    rw [List.dropWhile_eq_self_iff]
    intro hl
    have hpre := List.rdropWhile_prefix pyIsSpace (s.dropWhile pyIsSpace)
    have hm0 : (s.dropWhile pyIsSpace).dropWhile pyIsSpace = s.dropWhile pyIsSpace :=
      List.dropWhile_idempotent _ _
    have hlm : 0 < (s.dropWhile pyIsSpace).length := lt_of_lt_of_le hl hpre.length_le
    have hget : (List.rdropWhile pyIsSpace (s.dropWhile pyIsSpace)).get ⟨0, hl⟩ =
        (s.dropWhile pyIsSpace).get ⟨0, hlm⟩ := by
      simp only [List.get_eq_getElem]
      exact hpre.getElem hl
    rw [hget]
    exact List.dropWhile_eq_self_iff.mp hm0 hlm
  rw [hm]
  exact List.rdropWhile_idempotent _ _

/-- Everything a kept line of `parse_lrc_file` satisfies: non-blank, starts
with `[`, contains `]`, carries no metadata tag substring, has a colon in
the bracketed field, parsable minutes and seconds making up its timestamp,
and a non-empty stripped content that becomes its text. -/
theorem parseLine_eq_some {raw : Str} {p : Rat × Str} (h : parseLine raw = some p) :
    (pyStrip raw).isEmpty = false ∧
    (pyStrip raw).headD ' ' = '[' ∧
    (pyStrip raw).contains ']' = true ∧
    (metaTags.any (fun t => decide (t.IsInfix ((pyStrip raw).map Char.toLower)))) = false ∧
    (lrcTsField (pyStrip raw)).contains ':' = true ∧
    (∃ m sec, pyInt (lrcMinField (lrcTsField (pyStrip raw))) = some m ∧
      pyFloat (lrcSecField (lrcTsField (pyStrip raw))) = some sec ∧
      p.1 = (m : Rat) * 60 + sec) ∧
    p.2 = lrcContent (pyStrip raw) ∧
    p.2.isEmpty = false := by
  unfold parseLine at h
  by_cases h1 : (pyStrip raw).isEmpty
  · simp [h1] at h
  · rw [Bool.not_eq_true] at h1
    rw [if_neg (by simp [h1])] at h
    by_cases h2 : ((pyStrip raw).headD ' ' = '[' &&
        metaTags.any (fun t => decide (t.IsInfix ((pyStrip raw).map Char.toLower)))) = true
    · rw [if_pos h2] at h
      simp at h
    · rw [if_neg (by simp at h2 ⊢; exact h2)] at h
      by_cases h3 : ((pyStrip raw).headD ' ' = '[' && (pyStrip raw).contains ']') = true
      · rw [if_pos h3] at h
        by_cases h4 : (lrcTsField (pyStrip raw)).contains ':' = true
        · rw [if_pos h4] at h
          rcases hm : pyInt (lrcMinField (lrcTsField (pyStrip raw))) with _ | m
          · rw [hm] at h
            simp at h
          · rcases hsec : pyFloat (lrcSecField (lrcTsField (pyStrip raw))) with _ | sec
            · rw [hm, hsec] at h
              simp at h
            · rw [hm, hsec] at h
              by_cases h5 : (lrcContent (pyStrip raw)).isEmpty
              · simp [h5] at h
              · rw [Bool.not_eq_true] at h5
                simp only [h5, Bool.false_eq_true, if_false, Option.some.injEq] at h
                have hand : (pyStrip raw).headD ' ' = '[' ∧
                    (pyStrip raw).contains ']' = true := by
                  simpa using h3
                have hhead : (pyStrip raw).headD ' ' = '[' := hand.1
                have hbr : (pyStrip raw).contains ']' = true := hand.2
                have hmeta : (metaTags.any
                    (fun t => decide (t.IsInfix ((pyStrip raw).map Char.toLower)))) = false := by
                  by_cases hmt : (metaTags.any
                      (fun t => decide (t.IsInfix ((pyStrip raw).map Char.toLower)))) = true
                  · refine absurd ?_ h2
                    rw [hmt, Bool.and_true]
                    exact decide_eq_true hhead
                  · simpa using hmt
                refine ⟨h1, hhead, hbr, hmeta, h4, ⟨m, sec, rfl, rfl, ?_⟩, ?_, ?_⟩
                · rw [← h]
                · rw [← h]
                · rw [← h]
                  exact h5
        · rw [if_neg h4] at h
          simp at h
      · rw [if_neg h3] at h
        simp at h

/-- Every entry of a parsed transcript has non-empty text that is already
stripped. -/
theorem parse_lrc_file_text (lines : List Str) :
    ∀ p ∈ parse_lrc_file lines, p.2.isEmpty = false ∧ (pyStrip p.2).isEmpty = false := by
  intro p hp
  rw [parse_lrc_file, List.mem_mergeSort] at hp
  obtain ⟨raw, -, hsome⟩ := List.mem_filterMap.mp hp
  obtain ⟨-, -, -, -, -, -, hcontent, hne⟩ := parseLine_eq_some hsome
  refine ⟨hne, ?_⟩
  rw [hcontent]
  simp only [lrcContent]
  rw [pyStrip_idem]
  rw [hcontent] at hne
  simpa [lrcContent] using hne

/-- The block a processed line appends: one entry per word of the line, the
`is_line_end` flag false everywhere except on the line's last word. -/
theorem processLine_flags (seq : List (Rat × Str × Str)) (st : AlignSt) (line : Rat × Str)
    (h : (pyStrip line.2).isEmpty = false) :
    ∃ es, (processLine seq st line).2 = st.2 ++ es ∧
      es.map (fun e => e.2.2) =
        List.replicate ((pySplit line.2).length - 1) false ++ [true] := by
  unfold processLine
  simp only [h, Bool.false_eq_true, if_false]
  obtain ⟨es, h1, h2⟩ := foldWords_shape seq line.1 (pySplit line.2).length (pySplit line.2).enum st
  refine ⟨es, h1, ?_⟩
  rw [h2]
  have hne : pySplit line.2 ≠ [] := pySplit_ne_nil line.2 h
  obtain ⟨m, hm⟩ : ∃ m, (pySplit line.2).length = m + 1 := by
    cases hws : pySplit line.2 with
    | nil => exact absurd hws hne
    | cons a l => exact ⟨l.length, by simp⟩
  have hmap : (pySplit line.2).enum.map (fun p => p.1 == (pySplit line.2).length - 1) =
      (List.range (pySplit line.2).length).map (fun i => i == (pySplit line.2).length - 1) := by
    rw [show (fun p : Nat × Str => p.1 == (pySplit line.2).length - 1) =
        (fun i => i == (pySplit line.2).length - 1) ∘ Prod.fst from rfl]
    rw [← List.map_map, List.enum_map_fst]
  rw [hmap, hm]
  simp only [Nat.add_sub_cancel]
  exact range_flags m

/-- A block whose flags are `false, …, false, true` contains exactly one
set flag. -/
theorem countP_flag_block {es : List (Rat × Str × Bool)} {k : Nat}
    (h : es.map (fun e => e.2.2) = List.replicate k false ++ [true]) :
    es.countP (fun e => e.2.2) = 1 := by
  have hc := List.countP_map (fun b : Bool => b) (fun e : Rat × Str × Bool => e.2.2) es
  rw [h] at hc
  rw [List.countP_append, List.countP_replicate] at hc
  simp at hc
  simpa using hc.symm

/-- Folding the line loop over lines with non-blank text adds exactly one
set `is_line_end` flag per line. -/
theorem foldLines_countP (seq : List (Rat × Str × Str)) :
    ∀ (sl : List (Rat × Str)) (st : AlignSt),
      (∀ p ∈ sl, (pyStrip p.2).isEmpty = false) →
      (sl.foldl (processLine seq) st).2.countP (fun e => e.2.2) =
        st.2.countP (fun e => e.2.2) + sl.length := by
  intro sl
  induction sl with
  | nil => intro st _; simp
  | cons l ls ih =>
    intro st h
    simp only [List.foldl_cons, List.length_cons]
    obtain ⟨es, h1, h2⟩ := processLine_flags seq st l (h l (List.mem_cons_self l ls))
    rw [ih (processLine seq st l) (fun p hp => h p (List.mem_cons_of_mem l hp)), h1,
      List.countP_append, countP_flag_block h2]
    omega

/-- C5: each non-blank structure line contributes a block of entries whose
`is_line_end` flag is true exactly on its last word; globally, the aligner
output carries exactly one set flag per parsed structure line. -/
theorem line_end_flags :
    (∀ (seq : List (Rat × Str × Str)) (st : AlignSt) (line : Rat × Str),
      (pyStrip line.2).isEmpty = false →
      ∃ es, (processLine seq st line).2 = st.2 ++ es ∧
        es.map (fun e => e.2.2) =
          List.replicate ((pySplit line.2).length - 1) false ++ [true]) ∧
    (∀ structure_lrc timing_lrc : List Str,
      (create_word_level_lyrics structure_lrc timing_lrc).countP (fun e => e.2.2) =
        if ((parse_lrc_file structure_lrc).isEmpty ||
            (create_word_timing_map timing_lrc).isEmpty) then 0
        else (parse_lrc_file structure_lrc).length) := by
  constructor
  · exact processLine_flags
  · intro structure_lrc timing_lrc
    unfold create_word_level_lyrics
    by_cases h : ((parse_lrc_file structure_lrc).isEmpty ||
        (create_word_timing_map timing_lrc).isEmpty) = true
    · simp [h]
    · rw [Bool.not_eq_true] at h
      simp only [h, Bool.false_eq_true, if_false]
      have hperm := (List.mergeSort_perm (alignRaw structure_lrc timing_lrc) tsLE3).countP_eq
        (fun e => e.2.2)
      rw [hperm]
      unfold alignRaw
      rw [foldLines_countP (create_word_timing_map timing_lrc) (parse_lrc_file structure_lrc)
        (0, []) (fun p hp => (parse_lrc_file_text structure_lrc p hp).2)]
      simp

/-- Instantiation of the flag pattern on a concrete two-word line. -/
theorem line_end_flags_witness :
    ∃ es, (processLine wSeq ((0, []) : AlignSt) (10, "hello world".data)).2 =
        ((0, []) : AlignSt).2 ++ es ∧
      es.map (fun e => e.2.2) =
        List.replicate ((pySplit ("hello world".data)).length - 1) false ++ [true] :=
  line_end_flags.1 wSeq ((0, []) : AlignSt) (10, "hello world".data) (by decide)

/-! ### The parser's skip rules -/

set_option maxRecDepth 100000 in
unseal Rat.mul Rat.add Rat.inv Rat.sub in
/-- The parser's metadata skip is a substring test on the whole line, not a
test of the bracketed tag: a well-formed timestamped lyric line whose
content happens to contain the characters `al:` (inside `real:`) is
skipped, while the same line without the colon is kept. -/
theorem metadata_substring_skip :
    parseLine ("[00:12.00]real: yes".data) = none ∧
    parseLine ("[00:12.00]real yes".data) = some (12, "real yes".data) := by
  constructor
  · decide
  · decide

/-- C6 (amended): the parser skips exactly the blank lines, the lines
starting with `[` whose lowercased text contains one of the substrings
`ar:`, `al:`, `ti:`, `length:`, `id:` anywhere, the lines not starting
with `[` or lacking `]`, the lines whose bracketed field has no colon or
an unparsable minutes or seconds part, and the lines whose trimmed content
after the bracket is empty; a skipped line never affects the parse of the
other lines. -/
theorem parseLine_skip_characterization :
    (∀ raw : Str, parseLine raw = none ↔
      ((pyStrip raw).isEmpty = true ∨
       ((pyStrip raw).headD ' ' = '[' ∧
         ∃ t ∈ metaTags, t.IsInfix ((pyStrip raw).map Char.toLower)) ∨
       ¬ ((pyStrip raw).headD ' ' = '[' ∧ (pyStrip raw).contains ']' = true) ∨
       (lrcTsField (pyStrip raw)).contains ':' = false ∨
       pyInt (lrcMinField (lrcTsField (pyStrip raw))) = none ∨
       pyFloat (lrcSecField (lrcTsField (pyStrip raw))) = none ∨
       (lrcContent (pyStrip raw)).isEmpty = true)) ∧
    (∀ (pre post : List Str) (bad : Str), parseLine bad = none →
      parse_lrc_file (pre ++ bad :: post) = parse_lrc_file (pre ++ post)) := by
  constructor
  · intro raw
    constructor
    · intro hnone
      unfold parseLine at hnone
      by_cases h1 : (pyStrip raw).isEmpty
      · exact Or.inl h1
      · rw [Bool.not_eq_true] at h1
        rw [if_neg (by simp [h1])] at hnone
        by_cases h2 : ((pyStrip raw).headD ' ' = '[' &&
            metaTags.any (fun t => decide (t.IsInfix ((pyStrip raw).map Char.toLower)))) = true
        · refine Or.inr (Or.inl ?_)
          have hand : (pyStrip raw).headD ' ' = '[' ∧
              (metaTags.any (fun t => decide (t.IsInfix ((pyStrip raw).map Char.toLower)))) = true := by
            simpa using h2
          obtain ⟨t, ht, htt⟩ := List.any_eq_true.mp hand.2
          exact ⟨hand.1, t, ht, of_decide_eq_true htt⟩
        · rw [if_neg h2] at hnone
          by_cases h3 : ((pyStrip raw).headD ' ' = '[' && (pyStrip raw).contains ']') = true
          · rw [if_pos h3] at hnone
            by_cases h4 : (lrcTsField (pyStrip raw)).contains ':' = true
            · rw [if_pos h4] at hnone
              rcases hm : pyInt (lrcMinField (lrcTsField (pyStrip raw))) with _ | m
              · exact Or.inr (Or.inr (Or.inr (Or.inr (Or.inl rfl))))
              · rcases hsec : pyFloat (lrcSecField (lrcTsField (pyStrip raw))) with _ | sec
                · exact Or.inr (Or.inr (Or.inr (Or.inr (Or.inr (Or.inl rfl)))))
                · rw [hm, hsec] at hnone
                  by_cases h5 : (lrcContent (pyStrip raw)).isEmpty = true
                  · exact Or.inr (Or.inr (Or.inr (Or.inr (Or.inr (Or.inr h5)))))
                  · rw [Bool.not_eq_true] at h5
                    simp [h5] at hnone
            · rw [if_neg h4] at hnone
              exact Or.inr (Or.inr (Or.inr (Or.inl (by simpa using h4))))
          · refine Or.inr (Or.inr (Or.inl ?_))
            intro hand
            refine h3 ?_
            rw [hand.2, Bool.and_true]
            exact decide_eq_true hand.1
    · intro hdisj
      rcases hsome : parseLine raw with _ | p
      · rfl
      · obtain ⟨he, hhead, hbr, hmeta, hcolon, ⟨m, sec, hm, hsec, -⟩, hcont, hne⟩ :=
          parseLine_eq_some hsome
        rcases hdisj with h | h | h | h | h | h | h
        · rw [he] at h
          exact absurd h (by simp)
        · obtain ⟨-, t, ht, htt⟩ := h
          have hany : (metaTags.any
              (fun t => decide (t.IsInfix ((pyStrip raw).map Char.toLower)))) = true :=
            List.any_eq_true.mpr ⟨t, ht, decide_eq_true htt⟩
          rw [hmeta] at hany
          exact absurd hany (by simp)
        · exact absurd ⟨hhead, hbr⟩ h
        · rw [hcolon] at h
          exact absurd h (by simp)
        · rw [hm] at h
          exact absurd h (by simp)
        · rw [hsec] at h
          exact absurd h (by simp)
        · rw [hcont] at hne
          rw [hne] at h
          exact absurd h (by simp)
  · intro pre post bad hbad
    unfold parse_lrc_file
    rw [List.filterMap_append, List.filterMap_append, List.filterMap_cons, hbad]

/-- Instantiation of the skip characterization: a metadata line is skipped
and a malformed line drops out of the parse without affecting its
neighbours. -/
theorem parseLine_skip_characterization_witness :
    parseLine ("[ti:Song]".data) = none ∧
    parse_lrc_file (["[00:10.00]a".data] ++ ("junk".data) :: []) =
      parse_lrc_file (["[00:10.00]a".data] ++ []) :=
  ⟨(parseLine_skip_characterization.1 ("[ti:Song]".data)).mpr
     (Or.inr (Or.inl ⟨by decide, "ti:".data, by decide, by decide⟩)),
   parseLine_skip_characterization.2 ["[00:10.00]a".data] [] ("junk".data) (by decide)⟩

set_option maxRecDepth 200000 in
unseal Rat.mul Rat.add Rat.inv Rat.sub List.merge List.mergeSort in
/-- Parsed timestamps can be negative: Python `int` accepts a sign, so a
minutes field of `-1` yields the timestamp `-60 + 30 = -30`. -/
theorem negative_timestamp_parsed :
    parse_lrc_file ["[-1:30.00]x".data] = [(-30, "x".data)] ∧ ((-30 : Rat) < 0) := by
  constructor
  · decide
  · decide

/-- A character of a stripped string is a character of the string. -/
theorem pyStrip_sublist (s : Str) : List.Sublist (pyStrip s) s := by
  rw [pyStrip_eq_rdropWhile]
  exact ((List.rdropWhile_prefix pyIsSpace (s.dropWhile pyIsSpace)).sublist).trans
    (List.dropWhile_sublist pyIsSpace)

/-- The minutes field is made of characters of the raw line. -/
theorem lrcMinField_sublist (raw : Str) :
    List.Sublist (lrcMinField (lrcTsField (pyStrip raw))) raw := by
  unfold lrcMinField lrcTsField
  refine ((List.takeWhile_sublist _).trans ?_)
  refine ((List.takeWhile_sublist _).trans ?_)
  exact ((List.drop_sublist 1 _).trans (pyStrip_sublist raw))

/-- The seconds field is made of characters of the raw line. -/
theorem lrcSecField_sublist (raw : Str) :
    List.Sublist (lrcSecField (lrcTsField (pyStrip raw))) raw := by
  unfold lrcSecField lrcTsField
  refine ((List.takeWhile_sublist _).trans ?_)
  refine ((List.drop_sublist 1 _).trans ?_)
  refine ((List.dropWhile_sublist _).trans ?_)
  refine ((List.takeWhile_sublist _).trans ?_)
  exact ((List.drop_sublist 1 _).trans (pyStrip_sublist raw))

/-- Python `int` on a string with no minus sign is non-negative. -/
theorem pyInt_nonneg {s : Str} {m : Int} (hs : '-' ∉ s) (h : pyInt s = some m) :
    0 ≤ m := by
  unfold pyInt at h
  split at h
  · split at h
    · simp only [Option.some.injEq] at h
      rw [← h]
      exact Int.ofNat_nonneg _
    · exact absurd h (by simp)
  · exact absurd (List.mem_cons_self '-' _) hs
  · split at h
    · simp only [Option.some.injEq] at h
      rw [← h]
      exact Int.ofNat_nonneg _
    · exact absurd h (by simp)

/-- The magnitude part of Python `float` is non-negative. -/
theorem pyFloatMag_nonneg {s : Str} {q : Rat} (h : pyFloatMag s = some q) : 0 ≤ q := by
  unfold pyFloatMag at h
  split at h
  · split at h
    · exact absurd h (by simp)
    · simp only [Option.some.injEq] at h
      rw [← h]
      positivity
  · split at h
    · simp only [Option.some.injEq] at h
      rw [← h]
      positivity
    · exact absurd h (by simp)
  · exact absurd h (by simp)

/-- Python `float` on a string with no minus sign is non-negative. -/
theorem pyFloat_nonneg {s : Str} {q : Rat} (hs : '-' ∉ s) (h : pyFloat s = some q) :
    0 ≤ q := by
  unfold pyFloat at h
  split at h
  · exact pyFloatMag_nonneg h
  · exact absurd (List.mem_cons_self '-' _) hs
  · exact pyFloatMag_nonneg h

/-- C7 (amended): every parsed entry has non-empty text; the output is
non-decreasing in timestamp and the sort is stable (filtering at any fixed
timestamp returns the pre-sort subsequence); and entries parsed from lines
containing no minus sign have non-negative timestamps — with a sign in the
minutes or seconds field, `minutes*60 + seconds` can be negative. -/
theorem parser_output_invariants (lines : List Str) :
    (∀ p ∈ parse_lrc_file lines, p.2.isEmpty = false) ∧
    List.Pairwise (fun a b => a.1 ≤ b.1) (parse_lrc_file lines) ∧
    (∀ q : Rat, (parse_lrc_file lines).filter (fun e => decide (e.1 = q)) =
      (lines.filterMap parseLine).filter (fun e => decide (e.1 = q))) ∧
    (∀ raw ∈ lines, ∀ p, parseLine raw = some p → '-' ∉ raw → 0 ≤ p.1) := by
  refine ⟨fun p hp => (parse_lrc_file_text lines p hp).1, ?_, ?_, ?_⟩
  · unfold parse_lrc_file
    have hs := @List.sorted_mergeSort (Rat × Str) tsLE
      (by intro a b c h1 h2
          simp only [tsLE, decide_eq_true_eq] at h1 h2 ⊢
          exact le_trans h1 h2)
      (by intro a b
          simp only [tsLE]
          rcases le_total a.1 b.1 with hab | hab <;> simp [hab])
      (lines.filterMap parseLine)
    exact hs.imp (fun hab => by simpa [tsLE] using hab)
  · intro q
    unfold parse_lrc_file
    exact filter_key_mergeSort (fun e : Rat × Str => e.1) (lines.filterMap parseLine) q
  · intro raw _ p hsome hminus
    obtain ⟨-, -, -, -, -, ⟨m, sec, hm, hsec, hts⟩, -, -⟩ := parseLine_eq_some hsome
    have hmnn : 0 ≤ m := pyInt_nonneg
      (fun hc => hminus ((lrcMinField_sublist raw).subset hc)) hm
    have hsnn : 0 ≤ sec := pyFloat_nonneg
      (fun hc => hminus ((lrcSecField_sublist raw).subset hc)) hsec
    rw [hts]
    have hm60 : (0 : Rat) ≤ (m : Rat) * 60 := by
      have hcast : (0 : Rat) ≤ (m : Rat) := by exact_mod_cast hmnn
      nlinarith
    exact add_nonneg hm60 hsnn

set_option maxRecDepth 200000 in
unseal Rat.mul Rat.add Rat.inv Rat.sub List.merge List.mergeSort in
/-- Instantiation of the parser invariants on a concrete one-line file. -/
theorem parser_output_invariants_witness :
    List.Pairwise (fun (a b : Rat × Str) => a.1 ≤ b.1)
      (parse_lrc_file ["[00:10.00]a".data]) ∧
    (0 : Rat) ≤ (((10 : Rat), "a".data) : Rat × Str).1 :=
  ⟨(parser_output_invariants ["[00:10.00]a".data]).2.1,
   (parser_output_invariants ["[00:10.00]a".data]).2.2.2 ("[00:10.00]a".data) (by decide)
     ((10 : Rat), "a".data) (by decide) (by decide)⟩

/-! ### The normalizer -/

/-- `Char.toLower` fixes characters outside the basic latin upper range. -/
theorem charTL_eq_self {c : Char} (h : ¬(65 ≤ c.toNat ∧ c.toNat ≤ 90)) :
    Char.toLower c = c := by
  simp only [Char.toLower]
  rw [if_neg (by omega)]

/-- `Char.toLower` never produces a basic latin upper-case character. -/
theorem charTL_not_upper (c : Char) :
    ¬(65 ≤ (Char.toLower c).toNat ∧ (Char.toLower c).toNat ≤ 90) := by
  simp only [Char.toLower]
  by_cases h : Char.toNat c ≥ 65 ∧ Char.toNat c ≤ 90
  · rw [if_pos h]
    have hv : (Char.ofNat (Char.toNat c + 32)).toNat = Char.toNat c + 32 := by
      rw [Char.ofNat, dif_pos (by constructor; omega)]
      simp [Char.ofNatAux, Char.toNat, UInt32.toNat, UInt32.ofNat', BitVec.toNat_ofNatLt]
    rw [hv]
    omega
  · rw [if_neg h]
    omega

/-- `Char.toLower` is idempotent. -/
theorem charTL_idem (c : Char) :
    Char.toLower (Char.toLower c) = Char.toLower c :=
  charTL_eq_self (charTL_not_upper c)

/-- Basic latin upper-case characters are alphanumeric. -/
theorem upper_isAlphanum {c : Char} (h : 65 ≤ c.toNat ∧ c.toNat ≤ 90) :
    c.isAlphanum = true := by
  have h' : 65 ≤ c.val.toBitVec.toNat ∧ c.val.toBitVec.toNat ≤ 90 := h
  simp [Char.isAlphanum, Char.isAlpha, Char.isUpper, UInt32.le_def, BitVec.le_def,
    Char.toNat, UInt32.toNat]
  omega

/-- Every character of a collapsed string is a non-whitespace character of
the original or the single space. -/
theorem mem_collapseWS : ∀ (l : Str) (c : Char), c ∈ collapseWS l →
    (c ∈ l ∧ pyIsSpace c = false) ∨ c = ' ' := by
  intro l
  induction l with
  | nil => intro c hc; simp [collapseWS] at hc
  | cons a l ih =>
    intro c hc
    cases l with
    | nil =>
      unfold collapseWS at hc
      by_cases ha : pyIsSpace a
      · simp only [ha, if_true, List.mem_singleton] at hc
        exact Or.inr hc
      · simp only [ha, Bool.false_eq_true, if_false, List.mem_singleton] at hc
        refine Or.inl ⟨by simp [hc], ?_⟩
        rw [hc]
        simpa using ha
    | cons d ds =>
      unfold collapseWS at hc
      by_cases ha : pyIsSpace a
      · by_cases hd : pyIsSpace d
        · simp only [ha, hd, if_true] at hc
          rcases ih c hc with ⟨h1, h2⟩ | h
          · exact Or.inl ⟨List.mem_cons_of_mem a h1, h2⟩
          · exact Or.inr h
        · simp only [ha, hd, Bool.false_eq_true, if_true, if_false] at hc
          rcases List.mem_cons.mp hc with rfl | hc
          · exact Or.inr rfl
          · rcases ih c hc with ⟨h1, h2⟩ | h
            · exact Or.inl ⟨List.mem_cons_of_mem a h1, h2⟩
            · exact Or.inr h
      · simp only [ha, Bool.false_eq_true, if_false] at hc
        rcases List.mem_cons.mp hc with rfl | hc
        · exact Or.inl ⟨List.mem_cons_self _ _, by simpa using ha⟩
        · rcases ih c hc with ⟨h1, h2⟩ | h
          · exact Or.inl ⟨List.mem_cons_of_mem a h1, h2⟩
          · exact Or.inr h

/-- Collapsing distributes over a cons with a non-whitespace head. -/
theorem collapseWS_cons_of_not_space {d : Char} (ds : Str) (hd : pyIsSpace d = false) :
    collapseWS (d :: ds) = d :: collapseWS ds := by
  cases ds with
  | nil => simp [collapseWS, hd]
  | cons e es => simp [collapseWS, hd]

/-- The tail of a string with no adjacent whitespace has none either. -/
theorem noAdjSpace_tail {a : Char} {xs : Str} (h : noAdjSpace (a :: xs) = true) :
    noAdjSpace xs = true := by
  cases xs with
  | nil => rfl
  | cons b bs =>
    unfold noAdjSpace at h
    exact (Bool.and_eq_true_iff.mp h).2

/-- Consing a non-whitespace character preserves `noAdjSpace`. -/
theorem noAdjSpace_cons_left {a : Char} {xs : Str} (ha : pyIsSpace a = false)
    (h : noAdjSpace xs = true) : noAdjSpace (a :: xs) = true := by
  cases xs with
  | nil => rfl
  | cons b bs =>
    unfold noAdjSpace
    rw [Bool.and_eq_true_iff]
    exact ⟨by simp [ha], h⟩

/-- Consing anything onto a string with a non-whitespace head preserves
`noAdjSpace`. -/
theorem noAdjSpace_cons_right {a b : Char} {xs : Str} (hb : pyIsSpace b = false)
    (h : noAdjSpace (b :: xs) = true) : noAdjSpace (a :: b :: xs) = true := by
  unfold noAdjSpace
  rw [Bool.and_eq_true_iff]
  exact ⟨by simp [hb], h⟩

/-- The head of a collapse of a string with a non-whitespace head. -/
theorem noAdjSpace_collapseWS : ∀ l : Str, noAdjSpace (collapseWS l) = true := by
  intro l
  induction l with
  | nil => rfl
  | cons a l ih =>
    cases l with
    | nil =>
      unfold collapseWS
      by_cases ha : pyIsSpace a <;> simp [ha, noAdjSpace]
    | cons d ds =>
      by_cases ha : pyIsSpace a
      · by_cases hd : pyIsSpace d
        · unfold collapseWS
          simp only [ha, hd, if_true]
          exact ih
        · have hd' : pyIsSpace d = false := by simpa using hd
          unfold collapseWS
          simp only [ha, hd, Bool.false_eq_true, if_true, if_false]
          rw [collapseWS_cons_of_not_space ds hd'] at ih ⊢
          exact noAdjSpace_cons_right hd' ih
      · have ha' : pyIsSpace a = false := by simpa using ha
        rw [collapseWS_cons_of_not_space (d :: ds) ha']
        exact noAdjSpace_cons_left ha' ih

/-- `noAdjSpace` restricts to the right part of an append. -/
theorem noAdjSpace_append_right : ∀ (l1 l2 : Str),
    noAdjSpace (l1 ++ l2) = true → noAdjSpace l2 = true := by
  intro l1
  induction l1 with
  | nil => intro l2 h; exact h
  | cons a l1 ih =>
    intro l2 h
    exact ih l2 (noAdjSpace_tail h)

/-- `noAdjSpace` restricts to the left part of an append. -/
theorem noAdjSpace_append_left : ∀ (l1 l2 : Str),
    noAdjSpace (l1 ++ l2) = true → noAdjSpace l1 = true := by
  intro l1
  induction l1 with
  | nil => intro l2 _; rfl
  | cons a l1 ih =>
    intro l2 h
    cases l1 with
    | nil => rfl
    | cons b bs =>
      simp only [List.cons_append] at h
      unfold noAdjSpace at h ⊢
      rw [Bool.and_eq_true_iff] at h ⊢
      exact ⟨h.1, ih l2 h.2⟩

/-- Stripping preserves the absence of adjacent whitespace. -/
theorem noAdjSpace_pyStrip {l : Str} (h : noAdjSpace l = true) :
    noAdjSpace (pyStrip l) = true := by
  rw [pyStrip_eq_rdropWhile]
  have hsfx : List.IsSuffix (l.dropWhile pyIsSpace) l := List.dropWhile_suffix pyIsSpace
  obtain ⟨pre, hpre⟩ := hsfx
  have h1 : noAdjSpace (l.dropWhile pyIsSpace) = true :=
    noAdjSpace_append_right pre _ (by rw [hpre]; exact h)
  obtain ⟨suf, hsuf⟩ := List.rdropWhile_prefix pyIsSpace (l.dropWhile pyIsSpace)
  exact noAdjSpace_append_left _ suf (by rw [hsuf]; exact h1)

/-- Collapsing fixes a string with no adjacent whitespace whose whitespace
characters are all the plain space. -/
theorem collapseWS_eq_self : ∀ l : Str, (∀ c ∈ l, pyIsSpace c = true → c = ' ') →
    noAdjSpace l = true → collapseWS l = l := by
  intro l
  induction l with
  | nil => intro _ _; rfl
  | cons a l ih =>
    intro hsp hadj
    cases l with
    | nil =>
      unfold collapseWS
      by_cases ha : pyIsSpace a
      · rw [if_pos ha, hsp a (List.mem_cons_self _ _) ha]
      · rw [if_neg ha]
    | cons d ds =>
      have hpair : ¬(pyIsSpace a = true ∧ pyIsSpace d = true) := by
        unfold noAdjSpace at hadj
        rw [Bool.and_eq_true_iff] at hadj
        intro hc
        have := hadj.1
        rw [hc.1, hc.2] at this
        simp at this
      have hrest : collapseWS (d :: ds) = d :: ds :=
        ih (fun c hc hsc => hsp c (List.mem_cons_of_mem a hc) hsc) (noAdjSpace_tail hadj)
      by_cases ha : pyIsSpace a
      · have hd : pyIsSpace d = false := by
          by_cases hdt : pyIsSpace d = true
          · exact absurd ⟨ha, hdt⟩ hpair
          · simpa using hdt
        unfold collapseWS
        simp only [ha, hd, Bool.false_eq_true, if_true, if_false]
        rw [hrest, hsp a (List.mem_cons_self _ _) ha]
      · unfold collapseWS
        simp only [ha, Bool.false_eq_true, if_false]
        rw [hrest]

/-- A map that fixes every element of a list fixes the list. -/
theorem map_id_of_mem {f : Char → Char} : ∀ {l : Str}, (∀ c ∈ l, f c = c) → l.map f = l := by
  intro l
  induction l with
  | nil => intro _; rfl
  | cons a l ih =>
    intro h
    simp only [List.map_cons]
    rw [h a (List.mem_cons_self _ _), ih (fun c hc => h c (List.mem_cons_of_mem a hc))]

/-- After lowercasing, a punctuation-or-whitespace character that survives
the normalizer's filter is whitespace. -/
theorem punct_filter_space {d : Char}
    (hd : ((isAsciiPunct d && !(d == '_')) || pyIsSpace d) = true)
    (hk : (pyIsWord (Char.toLower d) || pyIsSpace (Char.toLower d)) = true) :
    pyIsSpace (Char.toLower d) = true := by
  rcases Bool.or_eq_true_iff.mp hd with hp | hs
  · exfalso
    obtain ⟨hp1, hp2⟩ := Bool.and_eq_true_iff.mp hp
    have hp1' : (33 ≤ d.toNat ∧ d.toNat ≤ 126) ∧ d.isAlphanum = false := by
      simpa [isAsciiPunct] using hp1
    obtain ⟨⟨hr1, hr2⟩, halnum⟩ := hp1'
    have htl : Char.toLower d = d :=
      charTL_eq_self (fun hu => by rw [upper_isAlphanum hu] at halnum; exact absurd halnum (by simp))
    rw [htl] at hk
    have hne : d ≠ '_' := by simpa using hp2
    have hw : pyIsWord d = false := by
      simp [pyIsWord, halnum, hne]
    have hsp : pyIsSpace d = false := by
      simp only [pyIsSpace, Bool.or_eq_false_iff]
      refine ⟨⟨⟨⟨⟨?_, ?_⟩, ?_⟩, ?_⟩, ?_⟩, ?_⟩ <;>
        · simp only [decide_eq_false_iff_not]
          rintro rfl
          exact absurd hr1 (by decide)
    rw [hw, hsp] at hk
    simp at hk
  · have htl : Char.toLower d = d := by
      refine charTL_eq_self ?_
      have hs' : ((((d = ' ' ∨ d = '\t') ∨ d = '\n') ∨ d = '\x0d') ∨ d = '\x0b') ∨
          d = '\x0c' := by
        simpa [pyIsSpace] using hs
      rcases hs' with ((((rfl | rfl) | rfl) | rfl) | rfl) | rfl <;> decide
    rw [htl]
    exact hs

/-- The counterexample characters: the underscore is a punctuation
character (it is in Python's `string.punctuation`) that `normalize_text`
keeps, because the regex class `\w` contains it. -/
theorem normalize_text_keeps_underscore :
    ("_".data).all isAsciiPunct = true ∧ normalize_text ("_".data) = "_".data := by
  constructor
  · decide
  · decide

/-- C8 (amended): `normalize_text` is idempotent, and maps every string of
whitespace and punctuation other than the underscore to the empty
string. -/
theorem normalize_idempotent_and_collapses_punct (s : Str) :
    normalize_text (normalize_text s) = normalize_text s ∧
    (s.all (fun c => (isAsciiPunct c && !(c == '_')) || pyIsSpace c) = true →
      normalize_text s = []) := by
  constructor
  · have hmem : ∀ c ∈ normalize_text s,
        (c ∈ (s.map Char.toLower).filter (fun c => pyIsWord c || pyIsSpace c) ∧
          pyIsSpace c = false) ∨ c = ' ' := by
      intro c hc
      exact mem_collapseWS _ c ((pyStrip_sublist _).subset hc)
    have hlower : ∀ c ∈ normalize_text s, Char.toLower c = c := by
      intro c hc
      rcases hmem c hc with ⟨h1, -⟩ | rfl
      · obtain ⟨d, -, rfl⟩ := List.mem_map.mp (List.mem_filter.mp h1).1
        exact charTL_idem d
      · decide
    have hkeep : ∀ c ∈ normalize_text s, (pyIsWord c || pyIsSpace c) = true := by
      intro c hc
      rcases hmem c hc with ⟨h1, -⟩ | rfl
      · exact (List.mem_filter.mp h1).2
      · decide
    have hspc : ∀ c ∈ normalize_text s, pyIsSpace c = true → c = ' ' := by
      intro c hc hsc
      rcases hmem c hc with ⟨-, h2⟩ | rfl
      · rw [hsc] at h2
        exact absurd h2 (by simp)
      · rfl
    have hadj : noAdjSpace (normalize_text s) = true :=
      noAdjSpace_pyStrip (noAdjSpace_collapseWS _)
    show pyStrip (collapseWS (((normalize_text s).map Char.toLower).filter
        (fun c => pyIsWord c || pyIsSpace c))) = normalize_text s
    rw [map_id_of_mem hlower, List.filter_eq_self.mpr hkeep,
      collapseWS_eq_self _ hspc hadj]
    show pyStrip (pyStrip (collapseWS ((s.map Char.toLower).filter
        (fun c => pyIsWord c || pyIsSpace c)))) =
      pyStrip (collapseWS ((s.map Char.toLower).filter (fun c => pyIsWord c || pyIsSpace c)))
    exact pyStrip_idem _
  · intro hall
    apply pyStrip_eq_nil_of_all_space
    intro c hc
    rcases mem_collapseWS _ c hc with ⟨h1, h2⟩ | rfl
    · obtain ⟨hm, hkeepc⟩ := List.mem_filter.mp h1
      obtain ⟨d, hd, rfl⟩ := List.mem_map.mp hm
      have hspace := punct_filter_space (List.all_eq_true.mp hall d hd) hkeepc
      exact absurd hspace (by rw [h2]; simp)
    · decide

/-- Instantiation of the normalizer properties on a concrete string of
punctuation and whitespace. -/
theorem normalize_idempotent_and_collapses_punct_witness :
    normalize_text (normalize_text (" .,! ".data)) = normalize_text (" .,! ".data) ∧
    normalize_text (" .,! ".data) = [] :=
  ⟨(normalize_idempotent_and_collapses_punct (" .,! ".data)).1,
   (normalize_idempotent_and_collapses_punct (" .,! ".data)).2 (by decide)⟩
